import Mathlib

/-!
Verification of the clonelens ABI near-clone detector (src/clonelens.py).

The development shallowly embeds the core pipeline: Keccak-256 (modelling the
external `eth_utils.keccak` dependency, validated against golden vectors),
signature building and selector hashing, the feature tokenizer, the 64-bit
SimHash fingerprint engine, selector-set Jaccard overlap, and the pairwise
similarity ranking.  Machine integers are modelled as `Nat` with explicit
masking by `2^64 - 1`; Python floats are modelled as `ℚ` (all arithmetic the
scoring performs is exact on the dyadic values involved).
-/

/-! ## Keccak-256 (model of the external `eth_utils.keccak`) -/

def mask64 : Nat := 2 ^ 64 - 1

def rotl64 (x n : Nat) : Nat :=
  ((x <<< n) ||| (x >>> (64 - n))) &&& mask64

/-- The 24 Keccak-f[1600] round constants, written in decimal. -/
def keccakRC : List Nat :=
  [1, 32898, 9223372036854808714,
   9223372039002292224, 32907, 2147483649,
   9223372039002292353, 9223372036854808585, 138,
   136, 2147516425, 2147483658,
   2147516555, 9223372036854775947, 9223372036854808713,
   9223372036854808579, 9223372036854808578, 9223372036854775936,
   32778, 9223372039002259466, 9223372039002292353,
   9223372036854808704, 2147483649, 9223372039002292232]

/-- Combined rho/pi table: entry at destination lane `x + 5*y` holds the
source lane index together with its rotation amount. -/
def piRho : List (Nat × Nat) :=
  [(0, 0), (6, 44), (12, 43), (18, 21), (24, 14),
   (3, 28), (9, 20), (10, 3), (16, 45), (22, 61),
   (1, 1), (7, 6), (13, 25), (19, 8), (20, 18),
   (4, 27), (5, 36), (11, 10), (17, 15), (23, 56),
   (2, 62), (8, 55), (14, 39), (15, 41), (21, 2)]

def keccakRound (st : List Nat) (rc : Nat) : List Nat :=
  let a := fun i => st.getD i 0
  let c := fun x => a x ^^^ a (x + 5) ^^^ a (x + 10) ^^^ a (x + 15) ^^^ a (x + 20)
  let d := fun x => c ((x + 4) % 5) ^^^ rotl64 (c ((x + 1) % 5)) 1
  let t := fun i => a i ^^^ d (i % 5)
  let b := piRho.map (fun sr => rotl64 (t sr.1) sr.2)
  let bf := fun i => b.getD i 0
  (List.range 25).map (fun j =>
    let v := bf j ^^^ ((bf ((j % 5 + 1) % 5 + 5 * (j / 5)) ^^^ mask64) &&& bf ((j % 5 + 2) % 5 + 5 * (j / 5)))
    if j = 0 then v ^^^ rc else v)

def keccakF (st : List Nat) : List Nat := keccakRC.foldl keccakRound st

def bytesLE (bs : List Nat) : Nat := bs.foldr (fun b acc => b + 256 * acc) 0

def blockLanes (block : List Nat) : List Nat :=
  (List.range 17).map (fun i => bytesLE ((block.drop (8 * i)).take 8))

def absorbBlock (st : List Nat) (block : List Nat) : List Nat :=
  keccakF ((List.range 25).map (fun i => st.getD i 0 ^^^ (blockLanes block).getD i 0))

def chunksN : Nat → List Nat → List (List Nat)
  | 0, _ => []
  | n + 1, l => l.take 136 :: chunksN n (l.drop 136)

def chunks136 (l : List Nat) : List (List Nat) :=
  chunksN (l.length / 136) l

def keccakPad (msg : List Nat) : List Nat :=
  let padLen := 136 - msg.length % 136
  if padLen = 1 then msg ++ [0x81]
  else msg ++ [0x01] ++ List.replicate (padLen - 2) 0 ++ [0x80]

def absorbAll (st : List Nat) : List (List Nat) → List Nat
  | [] => st
  | b :: bs => absorbAll (absorbBlock st b) bs

def laneBytes (x : Nat) : List Nat :=
  (List.range 8).map (fun i => (x >>> (8 * i)) % 256)

def keccak256 (msg : List Nat) : List Nat :=
  let st := absorbAll (List.replicate 25 0) (chunks136 (keccakPad msg))
  ((st.take 4).map laneBytes).flatten

def utf8EncodeChar (c : Nat) : List Nat :=
  if c < 0x80 then [c]
  else if c < 0x800 then [0xC0 ||| (c >>> 6), 0x80 ||| (c &&& 0x3F)]
  else if c < 0x10000 then
    [0xE0 ||| (c >>> 12), 0x80 ||| ((c >>> 6) &&& 0x3F), 0x80 ||| (c &&& 0x3F)]
  else
    [0xF0 ||| (c >>> 18), 0x80 ||| ((c >>> 12) &&& 0x3F),
     0x80 ||| ((c >>> 6) &&& 0x3F), 0x80 ||| (c &&& 0x3F)]

def utf8Encode (s : String) : List Nat :=
  (s.data.map (fun c => utf8EncodeChar c.toNat)).flatten

/-! ## Signature builder and selector hasher (clonelens.py lines 60-74) -/

def normalize_type (t : String) : String :=
  if t = "uint" then "uint256"
  else if t = "int" then "int256"
  else t

/-- One entry of an ABI member's `inputs` list: a JSON object whose `type`
field may be absent (`i.get("type", "")`). -/
structure AbiInput where
  type : Option String
deriving DecidableEq

/-- One ABI member as consumed by `extract_contract_view`: all fields may be
absent from the JSON object and are defaulted at use sites. -/
structure AbiItem where
  type : Option String
  name : Option String
  inputs : Option (List AbiInput)
  stateMutability : Option String
deriving DecidableEq

def inpTypeGet (i : AbiInput) : String := i.type.getD ""

def typGet (it : AbiItem) : String := it.type.getD "function"

def nameGet (it : AbiItem) : String := it.name.getD ""

def inputsGet (it : AbiItem) : List AbiInput := it.inputs.getD []

def mutGet (it : AbiItem) : String := it.stateMutability.getD "nonpayable"

def fn_signature (name : String) (inputs : List AbiInput) : String :=
  name ++ "(" ++ String.intercalate "," (inputs.map (fun i => normalize_type (inpTypeGet i))) ++ ")"

def evsig_signature (name : String) (inputs : List AbiInput) : String :=
  name ++ "(" ++ String.intercalate "," (inputs.map (fun i => normalize_type (inpTypeGet i))) ++ ")"

def hexDigit (n : Nat) : Char :=
  if n < 10 then Char.ofNat (48 + n) else Char.ofNat (87 + n)

def hexByte (b : Nat) : List Char :=
  [hexDigit (b / 16), hexDigit (b % 16)]

def fourbyte (sig : String) : String :=
  "0x" ++ String.mk (((keccak256 (utf8Encode sig)).take 4).map hexByte).flatten

/-! ## SimHash fingerprint engine (clonelens.py lines 78-103) -/

def _hash64 (s : String) : Nat :=
  let h := keccak256 (utf8Encode s)
  let bytesBE := fun (bs : List Nat) => bs.foldl (fun acc b => acc * 256 + b) 0
  (bytesBE (h.take 8) ^^^ bytesBE ((h.drop 8).take 8) ^^^
    bytesBE ((h.drop 16).take 8) ^^^ bytesBE (h.drop 24)) &&& mask64

def simhashStep (v : List Int) (tw : String × Int) : List Int :=
  let hv := _hash64 tw.1
  (List.range 64).map (fun i => v.getD i 0 + (if (hv >>> i) &&& 1 = 1 then tw.2 else -tw.2))

def simhash64 (tokens : List (String × Int)) : Nat :=
  let vec := tokens.foldl simhashStep (List.replicate 64 0)
  (List.range 64).foldl (fun out i => if 0 ≤ vec.getD i 0 then out ||| (1 <<< i) else out) 0

def bitCount : Nat → Nat
  | 0 => 0
  | n + 1 => (n + 1) % 2 + bitCount ((n + 1) / 2)
decreasing_by
  exact Nat.div_lt_self (Nat.succ_pos n) (by omega)

def hamming (a b : Nat) : Nat := bitCount (a ^^^ b)

def simhash_similarity (a b : Nat) : ℚ := 1 - (hamming a b : ℚ) / 64

/-! ## Feature extraction (clonelens.py lines 131-193) -/

/-- First pass of `extract_contract_view`: the `fns` list (function signatures
plus pseudo-signatures of constructor/fallback/receive members). -/
def fnsOf (abi : List AbiItem) : List String :=
  abi.filterMap (fun it =>
    if typGet it = "function" then some (fn_signature (nameGet it) (inputsGet it))
    else if typGet it = "constructor" ∨ typGet it = "fallback" ∨ typGet it = "receive" then
      some ("__" ++ typGet it ++ "__(" ++ mutGet it ++ ")")
    else none)

/-- First pass of `extract_contract_view`: the `evs` list. -/
def evsOf (abi : List AbiItem) : List String :=
  abi.filterMap (fun it =>
    if typGet it = "function" then none
    else if typGet it = "event" then some (evsig_signature (nameGet it) (inputsGet it))
    else none)

/-- First pass of `extract_contract_view`: the `sels` list (one selector per
function-kind member, duplicates kept). -/
def selsOf (abi : List AbiItem) : List String :=
  abi.filterMap (fun it =>
    if typGet it = "function" then some (fourbyte (fn_signature (nameGet it) (inputsGet it)))
    else none)

/-- Model of Python `str.lower()` (character-wise lowercasing; ABI
identifiers are ASCII, where `Char.toLower` agrees with Python). -/
def strLower (s : String) : String := String.mk (s.data.map Char.toLower)

/-- Tokens of one function-kind member (second pass, lines 158-169). -/
def fnTok (it : AbiItem) : List (String × Int) :=
  if typGet it = "function" then
    [(strLower (nameGet it), 3),
     (strLower (fn_signature (nameGet it) (inputsGet it)), 5),
     ("mut:" ++ mutGet it, 2)] ++
    (inputsGet it).map (fun inp => ("type:" ++ normalize_type (inpTypeGet inp), 1))
  else []

/-- Tokens of one event member (third pass, lines 172-177; the membership test
there is `it.get("type") == "event"`, with no default). -/
def evTok (it : AbiItem) : List (String × Int) :=
  if it.type = some "event" then
    [("ev:" ++ strLower (nameGet it), 2),
     ("evsig:" ++ strLower (evsig_signature (nameGet it) (inputsGet it)), 3)]
  else []

/-- The complete weighted token multiset handed to `simhash64`
(lines 155-182). -/
def tokensOf (abi : List AbiItem) : List (String × Int) :=
  abi.flatMap fnTok ++ abi.flatMap evTok ++
  [("nfunc:" ++ toString (fnsOf abi).length, 1),
   ("nevent:" ++ toString (evsOf abi).length, 1),
   ("nsel:" ++ toString (selsOf abi).length, 1)]

structure ContractView where
  file : String
  name_hint : String
  functions : List String
  events : List String
  selectors : List String
  simhash64 : Nat
deriving DecidableEq

/-- Core of `extract_contract_view` (file loading and path-derived labels
are external input handling and passed in as opaque strings). -/
def extract_contract_view (file name_hint : String) (abi : List AbiItem) : ContractView :=
  { file := file
    name_hint := name_hint
    functions := fnsOf abi
    events := evsOf abi
    selectors := (selsOf abi).toFinset.sort (· ≤ ·)
    simhash64 := simhash64 (tokensOf abi) }

def jaccard (a b : List String) : ℚ :=
  let sa := a.toFinset
  let sb := b.toFinset
  if sa = ∅ ∧ sb = ∅ then 1
  else if sa = ∅ ∨ sb = ∅ then 0
  else ((sa ∩ sb).card : ℚ) / ((sa ∪ sb).card : ℚ)

/-! ## Similarity engine (clonelens.py lines 261-276) -/

structure PairReport where
  a : String
  b : String
  a_name : String
  b_name : String
  simhash_sim : ℚ
  selector_jaccard : ℚ
  score : ℚ
  common_selectors : List String
  only_a : Int
  only_b : Int
deriving DecidableEq

/-- Body of the pair loop in `match_cmd` (lines 264-273). -/
def mkPair (a b : ContractView) : PairReport :=
  let sim := simhash_similarity a.simhash64 b.simhash64
  let jac := jaccard a.selectors b.selectors
  let score := 0.6 * sim + 0.4 * jac
  let common := (a.selectors.toFinset ∩ b.selectors.toFinset).sort (· ≤ ·)
  { a := a.file
    b := b.file
    a_name := a.name_hint
    b_name := b.name_hint
    simhash_sim := sim
    selector_jaccard := jac
    score := score
    common_selectors := common
    only_a := max 0 ((a.selectors.length : Int) - common.length)
    only_b := max 0 ((b.selectors.length : Int) - common.length) }

/-- The double loop of `match_cmd`: one `PairReport` for every `i < j`. -/
def allPairs : List ContractView → List PairReport
  | [] => []
  | v :: rest => rest.map (mkPair v) ++ allPairs rest

/-- The comparator realised by Python's stable ascending sort on the key
`(-score, -selector_jaccard, -simhash_sim)` (line 275). -/
def pairLE (p q : PairReport) : Bool :=
  decide ((toLex (-p.score, toLex (-p.selector_jaccard, -p.simhash_sim)) :
      Lex (ℚ × Lex (ℚ × ℚ))) ≤
    toLex (-q.score, toLex (-q.selector_jaccard, -q.simhash_sim)))

def rankedPairs (views : List ContractView) : List PairReport :=
  (allPairs views).mergeSort pairLE

/-- Truncation `pairs[:max(1, top)]` (line 276). -/
def topPairs (views : List ContractView) (top : Nat) : List PairReport :=
  (rankedPairs views).take (max 1 top)

/-- The set of characters the selector hasher may emit after the `0x`
prefix. -/
def isLowerHex (c : Char) : Prop := c ∈ "0123456789abcdef".data

instance (c : Char) : Decidable (isLowerHex c) := by
  unfold isLowerHex
  infer_instance

/-- Per-bit contribution of one token to the SimHash accumulators. -/
def contrib (tw : String × Int) (i : Nat) : Int :=
  if (_hash64 tw.1 >>> i) &&& 1 = 1 then tw.2 else -tw.2

def isFnB (it : AbiItem) : Bool := typGet it == "function"

def isEvB (it : AbiItem) : Bool := it.type == some "event"

def isSpecialB (it : AbiItem) : Bool :=
  typGet it == "constructor" || typGet it == "fallback" || typGet it == "receive"

def keepRelB (it : AbiItem) : Bool := isFnB it || isEvB it

/-- The synthetic pseudo-signature emitted for constructor/fallback/receive
members (line 152). -/
def pseudoSig (it : AbiItem) : String :=
  "__" ++ typGet it ++ "__(" ++ mutGet it ++ ")"

/-- A concrete view used to instantiate theorems with hypotheses. -/
def cvA : ContractView := ContractView.mk "a" "a" [] [] [] 0

/-- A second concrete view used to instantiate theorems with hypotheses. -/
def cvB : ContractView := ContractView.mk "b" "b" [] [] [] 1

/-- A constructor-kind member with payable mutability. -/
def ctorItem : AbiItem := AbiItem.mk (some "constructor") none none (some "payable")

/-- A function-kind member named `f` with no inputs. -/
def fItem : AbiItem := AbiItem.mk (some "function") (some "f") (some []) none

/-- A member with no `type` field at all. -/
def gItem : AbiItem := AbiItem.mk none (some "f") (some []) none

/-! ## Theorems -/

/-- Claim C1 (counterexample): on the empty token multiset `simhash64` does
not return 0. -/
theorem simhash64_empty_ne_zero : simhash64 [] ≠ 0 := by decide

/-- Claim C1 (amended): for the empty token multiset, every accumulator stays
at 0 and the `>= 0` tie-break sets every bit, so `simhash64` returns
`2^64 - 1` (all 64 bits set), not 0. -/
theorem simhash64_empty : simhash64 [] = 2 ^ 64 - 1 := by decide

theorem getD_map_range (n : Nat) (f : Nat → Int) (i : Nat) (h : i < n) (d : Int) :
    ((List.range n).map f).getD i d = f i := by
  simp [List.getD_eq_getElem?_getD, List.getElem?_range, h]

theorem simhashStep_length (v : List Int) (tw : String × Int) :
    (simhashStep v tw).length = 64 := by
  simp [simhashStep]

theorem simhashStep_getD (v : List Int) (tw : String × Int) (i : Nat) (h : i < 64) :
    (simhashStep v tw).getD i 0 = v.getD i 0 + contrib tw i := by
  simp only [simhashStep]
  rw [getD_map_range 64 _ i h]
  rfl

theorem vec_spec (tokens : List (String × Int)) :
    ∀ (v : List Int), ∀ i, i < 64 →
      (tokens.foldl simhashStep v).getD i 0 =
        v.getD i 0 + (tokens.map (fun tw => contrib tw i)).sum := by
  induction tokens with
  | nil => intro v i _; simp
  | cons tw ts ih =>
    intro v i hi
    rw [List.foldl_cons, ih (simhashStep v tw) i hi, simhashStep_getD v tw i hi]
    simp only [List.map_cons, List.sum_cons]
    ring

theorem out_congr (l : List Nat) (f g : Nat → Int) (hfg : ∀ i ∈ l, f i = g i) :
    ∀ z : Nat,
      l.foldl (fun out i => if 0 ≤ f i then out ||| (1 <<< i) else out) z =
      l.foldl (fun out i => if 0 ≤ g i then out ||| (1 <<< i) else out) z := by
  induction l with
  | nil => intro z; rfl
  | cons a l ih =>
    intro z
    simp only [List.foldl_cons]
    rw [hfg a (by simp)]
    exact ih (fun i hi => hfg i (by simp [hi])) _

/-- Claim C4: `simhash64` is invariant under permutation of the token list:
only the multiset of `(string, weight)` pairs matters, because each bit's
accumulator is a commutative sum of per-token contributions. -/
theorem simhash64_perm (t1 t2 : List (String × Int)) (h : t1.Perm t2) :
    simhash64 t1 = simhash64 t2 := by
  unfold simhash64
  apply out_congr
  intro i hi
  have hi64 : i < 64 := List.mem_range.mp hi
  rw [vec_spec t1 _ i hi64, vec_spec t2 _ i hi64]
  exact congrArg _ ((h.map (fun tw => contrib tw i)).sum_eq)

/-- Claim C4 (witness): a concrete two-token multiset fed in both orders. -/
theorem simhash64_perm_witness :
    simhash64 [("a", 1), ("b", 2)] = simhash64 [("b", 2), ("a", 1)] :=
  simhash64_perm _ _ (List.Perm.swap ("b", 2) ("a", 1) [])

theorem keccakRound_length (st : List Nat) (rc : Nat) : (keccakRound st rc).length = 25 := by
  simp [keccakRound]

theorem foldl_keccakRound_length (rcs : List Nat) :
    ∀ st : List Nat, st.length = 25 → (rcs.foldl keccakRound st).length = 25 := by
  induction rcs with
  | nil => intro st h; exact h
  | cons rc rcs ih => intro st _; exact ih _ (keccakRound_length st rc)

theorem absorbBlock_length (st block : List Nat) : (absorbBlock st block).length = 25 := by
  unfold absorbBlock keccakF
  exact foldl_keccakRound_length keccakRC _ (by simp)

theorem absorbAll_length (bs : List (List Nat)) :
    ∀ st : List Nat, st.length = 25 → (absorbAll st bs).length = 25 := by
  induction bs with
  | nil => intro st h; exact h
  | cons b bs ih => intro st _; exact ih _ (absorbBlock_length st b)

theorem keccak256_length (m : List Nat) : (keccak256 m).length = 32 := by
  have h25 : (absorbAll (List.replicate 25 0) (chunks136 (keccakPad m))).length = 25 :=
    absorbAll_length _ _ (by simp)
  simp only [keccak256, List.length_flatten, List.map_map]
  have : (List.length ∘ laneBytes) = fun _ : Nat => 8 := by
    funext x; simp [laneBytes]
  rw [this, List.map_const', List.sum_replicate, List.length_take, h25]
  rfl

theorem keccak256_lt (m : List Nat) : ∀ b ∈ keccak256 m, b < 256 := by
  intro b hb
  simp only [keccak256, List.mem_flatten, List.mem_map] at hb
  obtain ⟨l, ⟨x, _, rfl⟩, hbl⟩ := hb
  simp only [laneBytes, List.mem_map, List.mem_range] at hbl
  obtain ⟨i, _, rfl⟩ := hbl
  exact Nat.mod_lt _ (by norm_num)

theorem hexDigit_lowerHex : ∀ n < 16, isLowerHex (hexDigit n) := by decide

set_option maxRecDepth 1000000 in
/-- Claim C5: for every canonical signature string `s`, `fourbyte s` is `"0x"`
followed by exactly 8 lowercase hex characters encoding the first 4 bytes of
the Keccak-256 hash of the UTF-8 bytes of `s`; on
`"transfer(address,uint256)"` it returns the golden value `"0xa9059cbb"`. -/
theorem fourbyte_spec :
    (∀ s : String, fourbyte s =
        "0x" ++ String.mk (((keccak256 (utf8Encode s)).take 4).map hexByte).flatten) ∧
    (∀ s : String, ((((keccak256 (utf8Encode s)).take 4).map hexByte).flatten).length = 8) ∧
    (∀ s : String, ∀ c ∈ (((keccak256 (utf8Encode s)).take 4).map hexByte).flatten,
      isLowerHex c) ∧
    fourbyte "transfer(address,uint256)" = "0xa9059cbb" := by
  refine ⟨fun s => rfl, fun s => ?_, fun s c hc => ?_, by decide⟩
  · have h32 := keccak256_length (utf8Encode s)
    simp only [List.length_flatten, List.map_map]
    have hlen : (List.length ∘ hexByte) = fun _ : Nat => 2 := by
      funext x; simp [hexByte]
    rw [hlen, List.map_const', List.sum_replicate, List.length_take, h32]
    rfl
  · simp only [List.mem_flatten, List.mem_map] at hc
    obtain ⟨l, ⟨b, hb, rfl⟩, hcl⟩ := hc
    have hb256 : b < 256 := keccak256_lt _ b (List.mem_of_mem_take hb)
    simp only [hexByte, List.mem_cons, List.not_mem_nil, or_false] at hcl
    rcases hcl with rfl | rfl
    · exact hexDigit_lowerHex _ (Nat.div_lt_of_lt_mul (by omega))
    · exact hexDigit_lowerHex _ (Nat.mod_lt _ (by norm_num))

/-- Claim C6: `jaccard` is 1 when both distinct-selector sets are empty, 0
when exactly one is empty, and intersection over union otherwise. -/
theorem jaccard_spec (a b : List String) :
    (a.toFinset = ∅ → b.toFinset = ∅ → jaccard a b = 1) ∧
    (a.toFinset = ∅ → b.toFinset ≠ ∅ → jaccard a b = 0) ∧
    (a.toFinset ≠ ∅ → b.toFinset = ∅ → jaccard a b = 0) ∧
    (a.toFinset ≠ ∅ → b.toFinset ≠ ∅ →
      jaccard a b =
        ((a.toFinset ∩ b.toFinset).card : ℚ) / ((a.toFinset ∪ b.toFinset).card : ℚ)) := by
  unfold jaccard
  refine ⟨fun h1 h2 => ?_, fun h1 h2 => ?_, fun h1 h2 => ?_, fun h1 h2 => ?_⟩ <;>
    simp [h1, h2]

/-- Claim C6 (witness): the boundary case of one empty selector list. -/
theorem jaccard_spec_witness : jaccard ["x"] [] = 0 :=
  (jaccard_spec ["x"] []).2.2.1 (by simp) (by simp)

theorem bitCount_le : ∀ k x : Nat, x < 2 ^ k → bitCount x ≤ k := by
  intro k
  induction k with
  | zero =>
    intro x hx
    have hx0 : x = 0 := by omega
    subst hx0
    simp [bitCount]
  | succ k ih =>
    intro x hx
    cases x with
    | zero => simp [bitCount]
    | succ n =>
      have hp : 2 ^ (k + 1) = 2 ^ k * 2 := pow_succ 2 k
      have h2 : (n + 1) / 2 < 2 ^ k := by omega
      have hb := ih _ h2
      have heq : bitCount (n + 1) = (n + 1) % 2 + bitCount ((n + 1) / 2) := by
        simp [bitCount]
      omega

/-- Claim C7: fingerprint similarity is `1 - popcount(a XOR b)/64` and lies in
`[0,1]` for 64-bit fingerprints, and the combined score of a pair is
`0.6 × fingerprint similarity + 0.4 × selector Jaccard`. -/
theorem similarity_score_spec (a b : Nat) (v1 v2 : ContractView)
    (ha : a < 2 ^ 64) (hb : b < 2 ^ 64) :
    simhash_similarity a b = 1 - (bitCount (a ^^^ b) : ℚ) / 64 ∧
    0 ≤ simhash_similarity a b ∧ simhash_similarity a b ≤ 1 ∧
    (mkPair v1 v2).score =
      0.6 * simhash_similarity v1.simhash64 v2.simhash64 +
        0.4 * jaccard v1.selectors v2.selectors := by
  have h64 : (bitCount (a ^^^ b) : ℚ) ≤ 64 := by
    exact_mod_cast bitCount_le 64 _ (Nat.xor_lt_two_pow ha hb)
  have h0 : (0 : ℚ) ≤ (bitCount (a ^^^ b) : ℚ) := Nat.cast_nonneg _
  refine ⟨rfl, ?_, ?_, rfl⟩
  · unfold simhash_similarity hamming
    have := (div_le_one (by norm_num : (0 : ℚ) < 64)).mpr h64
    linarith
  · unfold simhash_similarity hamming
    have := div_nonneg h0 (by norm_num : (0 : ℚ) ≤ 64)
    linarith

/-- Claim C7 (witness): the theorem applied to the concrete fingerprints 0 and
1 and a concrete pair of views. -/
theorem similarity_score_spec_witness :
    simhash_similarity 0 1 = 1 - (bitCount (0 ^^^ 1) : ℚ) / 64 ∧
    0 ≤ simhash_similarity 0 1 ∧ simhash_similarity 0 1 ≤ 1 ∧
    (mkPair (ContractView.mk "a" "a" [] [] [] 0) (ContractView.mk "b" "b" [] [] [] 1)).score =
      0.6 * simhash_similarity 0 1 + 0.4 * jaccard [] [] :=
  similarity_score_spec 0 1 (ContractView.mk "a" "a" [] [] [] 0)
    (ContractView.mk "b" "b" [] [] [] 1) (by norm_num) (by norm_num)

theorem jaccard_self (l : List String) : jaccard l l = 1 := by
  unfold jaccard
  by_cases h : l.toFinset = ∅
  · simp [h]
  · have hpos : 0 < l.toFinset.card :=
      Finset.card_pos.mpr (Finset.nonempty_iff_ne_empty.mpr h)
    simp only [h, and_self, or_self, if_false, Finset.inter_self, Finset.union_self]
    exact div_self (by exact_mod_cast Nat.pos_iff_ne_zero.mp hpos)

/-- Claim C8: comparing an interface against itself yields fingerprint
similarity 1, selector Jaccard 1, and combined score exactly 1. -/
theorem self_similarity (v : ContractView) :
    simhash_similarity v.simhash64 v.simhash64 = 1 ∧
    jaccard v.selectors v.selectors = 1 ∧
    (mkPair v v).score = 1 := by
  have hsim : simhash_similarity v.simhash64 v.simhash64 = 1 := by
    unfold simhash_similarity hamming
    rw [Nat.xor_self]
    norm_num [bitCount]
  have hjac := jaccard_self v.selectors
  refine ⟨hsim, hjac, ?_⟩
  have hscore : (mkPair v v).score =
      0.6 * simhash_similarity v.simhash64 v.simhash64 +
        0.4 * jaccard v.selectors v.selectors := rfl
  rw [hscore, hsim, hjac]
  norm_num

theorem pairLE_trans : ∀ a b c : PairReport, pairLE a b → pairLE b c → pairLE a c := by
  intro a b c hab hbc
  simp only [pairLE, decide_eq_true_eq] at *
  exact le_trans hab hbc

theorem pairLE_total : ∀ a b : PairReport, pairLE a b || pairLE b a := by
  intro a b
  simp only [pairLE, Bool.or_eq_true, decide_eq_true_eq]
  exact le_total _ _

theorem allPairs_length_two :
    ∀ views : List ContractView,
      2 * (allPairs views).length = views.length * (views.length - 1) := by
  intro views
  induction views with
  | nil => rfl
  | cons v rest ih =>
    simp only [allPairs, List.length_append, List.length_map, List.length_cons]
    cases hr : rest.length with
    | zero =>
      rw [hr] at ih
      omega
    | succ m =>
      rw [hr] at ih
      have : (m + 1 + 1) * (m + 1 + 1 - 1) = 2 * (m + 1) + (m + 1) * (m + 1 - 1) := by
        simp only [Nat.add_sub_cancel]
        ring
      omega

/-- Claim C9: the similarity engine computes all `N·(N-1)/2` unordered pair
reports, sorts them descending by `(score, selector_jaccard,
simhash_similarity)` with a stable sort (tied pairs keep their input
enumeration order), and truncates to the top `max 1 k` only after the full
sort. -/
theorem ranking_spec (views : List ContractView) (k : Nat) (h : 2 ≤ views.length) :
    (allPairs views).length = views.length * (views.length - 1) / 2 ∧
    (rankedPairs views).Perm (allPairs views) ∧
    (rankedPairs views).Pairwise (fun p q => pairLE p q = true) ∧
    (∀ p q : PairReport, List.Sublist [p, q] (allPairs views) → pairLE p q = true →
      List.Sublist [p, q] (rankedPairs views)) ∧
    topPairs views k = (rankedPairs views).take (max 1 k) := by
  refine ⟨?_, List.mergeSort_perm _ _, ?_, ?_, rfl⟩
  · have h2 := allPairs_length_two views
    omega
  · exact List.sorted_mergeSort pairLE_trans pairLE_total _
  · intro p q hsub hle
    exact List.pair_sublist_mergeSort pairLE_trans pairLE_total hle hsub

/-- Claim C9 (witness): the theorem applied to a concrete two-view collection
with `k = 1`. -/
theorem ranking_spec_witness :
    (allPairs [cvA, cvB]).length = [cvA, cvB].length * ([cvA, cvB].length - 1) / 2 ∧
    topPairs [cvA, cvB] 1 = (rankedPairs [cvA, cvB]).take (max 1 1) :=
  ⟨(ranking_spec [cvA, cvB] 1 (by simp)).1,
   (ranking_spec [cvA, cvB] 1 (by simp)).2.2.2.2⟩

/-- Claim C10: a member whose `type` field is absent is processed exactly as
if its type were `"function"`: the whole extracted view is unchanged by
filling in `"function"`, and the member contributes a signature, a selector,
and the function tokens. -/
theorem default_type_function (file nh : String) (pre post : List AbiItem)
    (m : AbiItem) (h : m.type = none) :
    extract_contract_view file nh (pre ++ m :: post) =
      extract_contract_view file nh (pre ++ { m with type := some "function" } :: post) ∧
    fn_signature (nameGet m) (inputsGet m) ∈ fnsOf (pre ++ m :: post) ∧
    fourbyte (fn_signature (nameGet m) (inputsGet m)) ∈ selsOf (pre ++ m :: post) ∧
    (strLower (nameGet m), (3 : Int)) ∈ tokensOf (pre ++ m :: post) := by
  obtain ⟨mt, mn, mi, ms⟩ := m
  simp only [AbiItem.mk.injEq] at h
  subst h
  refine ⟨?_, ?_, ?_, ?_⟩
  · simp [extract_contract_view, fnsOf, evsOf, selsOf, tokensOf, fnTok, evTok,
      List.filterMap_append, List.filterMap_cons, List.flatMap_append, List.flatMap_cons,
      typGet, nameGet, inputsGet, mutGet]
  · simp [fnsOf, List.filterMap_append, List.filterMap_cons, typGet]
  · simp [selsOf, List.filterMap_append, List.filterMap_cons, typGet]
  · refine List.mem_append_left _ (List.mem_append_left _
      (List.mem_flatMap.mpr
        ⟨AbiItem.mk none mn mi ms, List.mem_append_right _ (List.mem_cons_self _ _), ?_⟩))
    simp [fnTok, typGet]

/-- Claim C10 (witness): a concrete member with no `type` field. -/
theorem default_type_function_witness :
    extract_contract_view "g" "g" [gItem] =
      extract_contract_view "g" "g" [AbiItem.mk (some "function") (some "f") (some []) none] ∧
    fn_signature (nameGet gItem) (inputsGet gItem) ∈ fnsOf [gItem] ∧
    fourbyte (fn_signature (nameGet gItem) (inputsGet gItem)) ∈ selsOf [gItem] ∧
    (strLower (nameGet gItem), (3 : Int)) ∈ tokensOf [gItem] :=
  default_type_function "g" "g" [] [] gItem rfl

/-- Claim C2 (counterexample): for an interface holding one payable
constructor, the token multiset handed to `simhash64` consists only of the
three count tokens; the pseudo-signature token `__constructor__(payable)` is
not in it (at weight 3 or any other position). -/
theorem pseudo_token_cex :
    tokensOf [ctorItem] = [("nfunc:1", 1), ("nevent:0", 1), ("nsel:0", 1)] ∧
    ("__constructor__(payable)", (3 : Int)) ∉ tokensOf [ctorItem] := by
  constructor
  · decide
  · decide

/-- Claim C3 (counterexample): two identically-signed functions produce the
token `nsel:2` even though the interface has exactly 1 distinct selector; the
claimed token `nsel:1` is absent. -/
theorem nsel_distinct_cex :
    ("nsel:2", (1 : Int)) ∈ tokensOf [fItem, fItem] ∧
    ("nsel:1", (1 : Int)) ∉ tokensOf [fItem, fItem] ∧
    (selsOf [fItem, fItem]).dedup.length = 1 := by
  have htok : tokensOf [fItem, fItem] =
      [("f", 3), ("f()", 5), ("mut:nonpayable", 2), ("f", 3), ("f()", 5),
       ("mut:nonpayable", 2), ("nfunc:2", 1), ("nevent:0", 1), ("nsel:2", 1)] := by
    decide
  have hsel : selsOf [fItem, fItem] = [fourbyte "f()", fourbyte "f()"] := rfl
  refine ⟨by rw [htok]; simp, by rw [htok]; simp, ?_⟩
  rw [hsel, List.dedup_cons_of_mem (by simp),
    List.dedup_cons_of_not_mem (List.not_mem_nil _), List.dedup_nil]
  rfl

theorem typGet_eq_event (it : AbiItem) : typGet it = "event" ↔ it.type = some "event" := by
  cases h : it.type with
  | none => simp [typGet, h]
  | some t => simp [typGet, h]

theorem fnTok_eq_nil {it : AbiItem} (h : isFnB it = false) : fnTok it = [] := by
  have hne : ¬ typGet it = "function" := by simpa [isFnB] using h
  simp [fnTok, hne]

theorem evTok_eq_nil {it : AbiItem} (h : isEvB it = false) : evTok it = [] := by
  have hne : ¬ it.type = some "event" := by simpa [isEvB] using h
  simp [evTok, hne]

theorem flatMap_fnTok_filter (abi : List AbiItem) :
    abi.flatMap fnTok = (abi.filter isFnB).flatMap fnTok := by
  induction abi with
  | nil => rfl
  | cons a l ih =>
    cases hfa : isFnB a with
    | true => simp [List.filter_cons, hfa, ih]
    | false => simp [List.filter_cons, hfa, fnTok_eq_nil hfa, ih]

theorem flatMap_evTok_filter (abi : List AbiItem) :
    abi.flatMap evTok = (abi.filter isEvB).flatMap evTok := by
  induction abi with
  | nil => rfl
  | cons a l ih =>
    cases hea : isEvB a with
    | true => simp [List.filter_cons, hea, ih]
    | false => simp [List.filter_cons, hea, evTok_eq_nil hea, ih]

theorem filter_sub_keepRel (p : AbiItem → Bool)
    (hp : ∀ it, p it = true → keepRelB it = true) (l : List AbiItem) :
    l.filter p = (l.filter keepRelB).filter p := by
  induction l with
  | nil => rfl
  | cons a l ih =>
    cases hpa : p a with
    | true => simp [List.filter_cons, hpa, hp a hpa, ih]
    | false =>
      cases hk : keepRelB a with
      | true => simp [List.filter_cons, hpa, hk, ih]
      | false => simp [List.filter_cons, hpa, hk, ih]

theorem length_filterMap_eq (f : AbiItem → Option String) (p : AbiItem → Bool)
    (h : ∀ a, (f a).isSome = p a) :
    ∀ l : List AbiItem, (l.filterMap f).length = (l.filter p).length := by
  intro l
  induction l with
  | nil => rfl
  | cons a l ih =>
    cases hfa : f a with
    | none =>
      have hpa : p a = false := by rw [← h a, hfa]; rfl
      simp [List.filterMap_cons, hfa, List.filter_cons, hpa, ih]
    | some b =>
      have hpa : p a = true := by rw [← h a, hfa]; rfl
      simp [List.filterMap_cons, hfa, List.filter_cons, hpa, ih]

theorem fnsOf_length (abi : List AbiItem) :
    (fnsOf abi).length = (abi.filter (fun it => isFnB it || isSpecialB it)).length := by
  apply length_filterMap_eq
  intro a
  by_cases h1 : typGet a = "function"
  · simp [h1, isFnB, isSpecialB]
  · by_cases h2 : typGet a = "constructor" ∨ typGet a = "fallback" ∨ typGet a = "receive"
    · rcases h2 with h | h | h <;> simp [h1, h, isFnB, isSpecialB]
    · push_neg at h2
      obtain ⟨h2a, h2b, h2c⟩ := h2
      simp [h1, h2a, h2b, h2c, isFnB, isSpecialB]

theorem evsOf_length (abi : List AbiItem) :
    (evsOf abi).length = (abi.filter isEvB).length := by
  apply length_filterMap_eq
  intro a
  by_cases h1 : typGet a = "function"
  · have he : isEvB a = false := by
      cases hv : isEvB a
      · rfl
      · exfalso
        have hv2 : a.type = some "event" := by simpa [isEvB] using hv
        have := (typGet_eq_event a).mpr hv2
        rw [h1] at this
        simp at this
    simp [h1, he]
  · by_cases h2 : typGet a = "event"
    · have he : isEvB a = true := by simp [isEvB, (typGet_eq_event a).mp h2]
      simp [h1, h2, he]
    · have he : isEvB a = false := by
        simp only [isEvB, beq_eq_false_iff_ne, ne_eq]
        exact fun hv => h2 ((typGet_eq_event a).mpr hv)
      simp [h1, h2, he]

theorem selsOf_length (abi : List AbiItem) :
    (selsOf abi).length = (abi.filter isFnB).length := by
  apply length_filterMap_eq
  intro a
  by_cases h1 : typGet a = "function" <;> simp [h1, isFnB]

theorem length_filter_or (p q : AbiItem → Bool)
    (hpq : ∀ a, ¬(p a = true ∧ q a = true)) (l : List AbiItem) :
    (l.filter fun a => p a || q a).length = (l.filter p).length + (l.filter q).length := by
  induction l with
  | nil => rfl
  | cons a l ih =>
    cases hpa : p a with
    | true =>
      have hqa : q a = false := by
        cases hqa : q a
        · rfl
        · exact absurd ⟨hpa, hqa⟩ (hpq a)
      simp [List.filter_cons, hpa, hqa, ih]
      omega
    | false =>
      cases hqa : q a <;> simp [List.filter_cons, hpa, hqa, ih] <;> omega

theorem fn_special_disjoint (a : AbiItem) : ¬(isFnB a = true ∧ isSpecialB a = true) := by
  rintro ⟨h1, h2⟩
  have h1e : typGet a = "function" := by simpa [isFnB] using h1
  simp [isSpecialB, h1e] at h2

/-- Claim C2 (amended): a constructor/fallback/receive member's
pseudo-signature `__<kind>__(<mutability>)` (mutability defaulting to
nonpayable) is appended to the `fns` list, not to the token multiset; such
members influence the tokens handed to `simhash64` only through the
`nfunc:<count>` token, i.e. only through how many of them there are. -/
theorem pseudo_sig_spec :
    (∀ (abi : List AbiItem) (m : AbiItem), m ∈ abi → isSpecialB m = true →
      pseudoSig m ∈ fnsOf abi) ∧
    (∀ abi1 abi2 : List AbiItem,
      abi1.filter keepRelB = abi2.filter keepRelB →
      (abi1.filter isSpecialB).length = (abi2.filter isSpecialB).length →
      tokensOf abi1 = tokensOf abi2) := by
  constructor
  · intro abi m hm hsp
    have hsp2 : typGet m = "constructor" ∨ typGet m = "fallback" ∨ typGet m = "receive" := by
      have := hsp
      simp only [isSpecialB, Bool.or_eq_true, beq_iff_eq] at this
      tauto
    have hne : ¬ typGet m = "function" := by
      rcases hsp2 with h | h | h <;> simp [h]
    refine List.mem_filterMap.mpr ⟨m, hm, ?_⟩
    rw [if_neg hne, if_pos hsp2]
    rfl
  · intro abi1 abi2 hrel hsp
    have hsub1 : ∀ it, isFnB it = true → keepRelB it = true := by
      intro it h
      simp [keepRelB, h]
    have hsub2 : ∀ it, isEvB it = true → keepRelB it = true := by
      intro it h
      simp [keepRelB, h]
    have hfn : abi1.filter isFnB = abi2.filter isFnB := by
      rw [filter_sub_keepRel isFnB hsub1 abi1, filter_sub_keepRel isFnB hsub1 abi2, hrel]
    have hev : abi1.filter isEvB = abi2.filter isEvB := by
      rw [filter_sub_keepRel isEvB hsub2 abi1, filter_sub_keepRel isEvB hsub2 abi2, hrel]
    have hfl : (abi1.filter isFnB).length = (abi2.filter isFnB).length := by rw [hfn]
    have hnfunc : (fnsOf abi1).length = (fnsOf abi2).length := by
      rw [fnsOf_length, fnsOf_length, length_filter_or _ _ fn_special_disjoint,
        length_filter_or _ _ fn_special_disjoint, hfl, hsp]
    have hnev : (evsOf abi1).length = (evsOf abi2).length := by
      rw [evsOf_length, evsOf_length, hev]
    have hnsel : (selsOf abi1).length = (selsOf abi2).length := by
      rw [selsOf_length, selsOf_length, hfl]
    unfold tokensOf
    rw [flatMap_fnTok_filter abi1, flatMap_fnTok_filter abi2, hfn,
      flatMap_evTok_filter abi1, flatMap_evTok_filter abi2, hev, hnfunc, hnev, hnsel]

/-- Claim C2 (witness): the pseudo-signature of a concrete payable
constructor lands in the `fns` list, and replacing the payable constructor by
one with absent mutability leaves the token multiset unchanged (the tokens
see only the count of special members). -/
theorem pseudo_sig_spec_witness :
    pseudoSig ctorItem ∈ fnsOf [ctorItem] ∧
    tokensOf [ctorItem] = tokensOf [AbiItem.mk (some "constructor") none none none] :=
  ⟨pseudo_sig_spec.1 [ctorItem] ctorItem (List.mem_cons_self _ _) (by decide),
   pseudo_sig_spec.2 [ctorItem] [AbiItem.mk (some "constructor") none none none]
     (by decide) (by decide)⟩

theorem type_ne_nsel (x y : String) : ¬ ("type:" ++ x = "nsel:" ++ y) := by
  intro h
  have h2 := congrArg String.data h
  rw [String.data_append, String.data_append] at h2
  have hx : "type:".data = ['t', 'y', 'p', 'e', ':'] := rfl
  have hy : "nsel:".data = ['n', 's', 'e', 'l', ':'] := rfl
  rw [hx, hy] at h2
  simp at h2

theorem nfunc_ne_nsel (x y : String) : ¬ ("nfunc:" ++ x = "nsel:" ++ y) := by
  intro h
  have h2 := congrArg String.data h
  rw [String.data_append, String.data_append] at h2
  have hx : "nfunc:".data = ['n', 'f', 'u', 'n', 'c', ':'] := rfl
  have hy : "nsel:".data = ['n', 's', 'e', 'l', ':'] := rfl
  rw [hx, hy] at h2
  simp at h2

theorem nevent_ne_nsel (x y : String) : ¬ ("nevent:" ++ x = "nsel:" ++ y) := by
  intro h
  have h2 := congrArg String.data h
  rw [String.data_append, String.data_append] at h2
  have hx : "nevent:".data = ['n', 'e', 'v', 'e', 'n', 't', ':'] := rfl
  have hy : "nsel:".data = ['n', 's', 'e', 'l', ':'] := rfl
  rw [hx, hy] at h2
  simp at h2

theorem fnTok_weight_one {it : AbiItem} {s : String} (h : (s, (1 : Int)) ∈ fnTok it) :
    ∃ x, s = "type:" ++ x := by
  unfold fnTok at h
  by_cases hf : typGet it = "function"
  · rw [if_pos hf] at h
    simp only [List.cons_append, List.nil_append, List.mem_cons, List.mem_map,
      Prod.mk.injEq] at h
    rcases h with ⟨_, h2⟩ | ⟨_, h2⟩ | ⟨_, h2⟩ | ⟨inp, _, h1, _⟩
    · exact absurd h2 (by decide)
    · exact absurd h2 (by decide)
    · exact absurd h2 (by decide)
    · exact ⟨_, h1.symm⟩
  · rw [if_neg hf] at h
    exact absurd h (List.not_mem_nil _)

theorem evTok_weight_one {it : AbiItem} {s : String} (h : (s, (1 : Int)) ∈ evTok it) :
    False := by
  unfold evTok at h
  by_cases he : it.type = some "event"
  · rw [if_pos he] at h
    simp only [List.mem_cons, List.not_mem_nil, or_false, Prod.mk.injEq] at h
    rcases h with ⟨_, h2⟩ | ⟨_, h2⟩ <;> exact absurd h2 (by decide)
  · rw [if_neg he] at h
    exact absurd h (List.not_mem_nil _)

theorem nsel_count (abi : List AbiItem) :
    List.count ("nsel:" ++ toString ((abi.filter isFnB).length), (1 : Int))
      (tokensOf abi) = 1 := by
  have hA : List.count ("nsel:" ++ toString ((abi.filter isFnB).length), (1 : Int))
      (abi.flatMap fnTok) = 0 := by
    rw [List.count_eq_zero]
    intro hmem
    obtain ⟨it, _, hit⟩ := List.mem_flatMap.mp hmem
    obtain ⟨x, hx⟩ := fnTok_weight_one hit
    exact type_ne_nsel x _ hx.symm
  have hB : List.count ("nsel:" ++ toString ((abi.filter isFnB).length), (1 : Int))
      (abi.flatMap evTok) = 0 := by
    rw [List.count_eq_zero]
    intro hmem
    obtain ⟨it, _, hit⟩ := List.mem_flatMap.mp hmem
    exact evTok_weight_one hit
  unfold tokensOf
  rw [List.count_append, List.count_append, hA, hB, selsOf_length]
  simp [List.count_cons, nfunc_ne_nsel, nevent_ne_nsel]

/-- Claim C3 (amended): the tokenizer emits exactly one token
`nsel:<n>` with weight 1, where `n` counts one selector per function-kind
member (duplicate selectors counted each time, i.e. `n` is the number of
function members), not the count of distinct selectors. -/
theorem nsel_token_spec (abi : List AbiItem) :
    List.count ("nsel:" ++ toString ((abi.filter isFnB).length), (1 : Int))
      (tokensOf abi) = 1 ∧
    (selsOf abi).length = (abi.filter isFnB).length :=
  ⟨nsel_count abi, selsOf_length abi⟩
